import Mathlib

/-!
Verification of the btree store (a WAL-backed B+Tree key-value store).

The repository's visible source is `src/lib.rs`, the store coordinator
(`BTree::new`, `BTree::insert`, a disabled `compact` sketch) plus tests.
The modules it drives (`wal_file`, `multi_map`, `disk_btree`) are not in
the visible source; they are modelled here from the specification's
contracts (§4.1–§4.3) and from how the tests exercise them.

Keys and values are modelled as natural numbers with an explicit
byte-encoding size function, matching the spec's collaborator boundary:
a deterministic encoder producing a bounded number of bytes.
-/

set_option autoImplicit false

namespace BTreeStore

/-- Error taxonomy from spec §7. -/
inductive BTreeError where
  | IOError
  | FormatError
  | EncodingError
  | CorruptionError
  deriving DecidableEq, Repr

/-- One key and one value; the unit of every write and of every log slot.
Mirrors `KeyValuePair` from the source. -/
structure KeyValuePair where
  key : Nat
  value : Nat
  deriving DecidableEq, Repr

/-- Fuel-driven helper computing the number of base-256 digits of `n`. -/
def byteSizeAux : Nat → Nat → Nat
  | 0, _ => 1
  | fuel + 1, n => if n < 256 then 1 else 1 + byteSizeAux fuel (n / 256)

/-- Modelled from the spec: the deterministic byte-encoding capability
(§6 collaborator boundary) used by the missing `wal_file` module; the
encoded size of a natural number is its number of base-256 digits. -/
def byteSize (n : Nat) : Nat := byteSizeAux n n

/-- Modelled from the spec: `wal_file`'s `write_record` (§4.1 `append`),
missing from the visible source. Encodes the key into a `maxKeySize`-byte
slot half and the value into a `maxValueSize`-byte half; fails with
`EncodingError` when either encoding exceeds its budget, otherwise
appends the record at end-of-file. -/
def writeRecord (maxKeySize maxValueSize : Nat) (r : KeyValuePair)
    (records : List KeyValuePair) : Except BTreeError (List KeyValuePair) :=
  if byteSize r.key ≤ maxKeySize ∧ byteSize r.value ≤ maxValueSize then
    Except.ok (records ++ [r])
  else
    Except.error BTreeError.EncodingError

/-- Modelled from the spec: the in-memory multi-map (`multi_map` module,
missing from the visible source; §4.2). A key maps to the ordered list of
its versions, in insertion order; entries are kept in ascending key order
so that iteration yields pairs sorted by key. -/
abbrev MultiMap := List (Nat × List Nat)

/-- Modelled from the spec: `MultiMap::insert` (§4.2) appends `v` to the
ordered version-list for `k`, creating the list if absent, keeping the
entries sorted by key. -/
def MultiMap.insert (m : MultiMap) (k v : Nat) : MultiMap :=
  match m with
  | [] => [(k, [v])]
  | (k₀, vs) :: rest =>
    if k < k₀ then (k, [v]) :: (k₀, vs) :: rest
    else if k == k₀ then (k₀, vs ++ [v]) :: rest
    else (k₀, vs) :: MultiMap.insert rest k v

/-- Modelled from the spec: `MultiMap::contains_key` (§4.2), true iff a
version-list exists for `k`. -/
def MultiMap.containsKey (m : MultiMap) (k : Nat) : Bool :=
  match m with
  | [] => false
  | (k₀, _) :: rest => k₀ == k || MultiMap.containsKey rest k

/-- Modelled from the spec: `MultiMap::lookup` (§4.2), the most recently
appended version for `k`, or none. -/
def MultiMap.lookup (m : MultiMap) (k : Nat) : Option Nat :=
  match m with
  | [] => none
  | (k₀, vs) :: rest => if k₀ == k then vs.getLast? else MultiMap.lookup rest k

/-- Modelled from the spec: the version-list the buffer holds for `k`
(empty when `k` is absent). -/
def MultiMap.versions (m : MultiMap) (k : Nat) : List Nat :=
  match m with
  | [] => []
  | (k₀, vs) :: rest => if k₀ == k then vs else MultiMap.versions rest k

/-- The constructor's replay loop from the source (`lib.rs` lines 63–65):
fold every record yielded by the WAL iterator, in file order, into the
in-memory multi-map. -/
def replayLog (records : List KeyValuePair) : MultiMap :=
  records.foldl (fun m r => MultiMap.insert m r.key r.value) []

/-- Exact lookup in the logical (sorted, unique-key) contents of a tree
file. Modelled from the spec: `disk_btree`'s `lookup` (§4.3), missing
from the visible source, returns the value stored for `k` or not-found. -/
def assocLookup (entries : List (Nat × Nat)) (k : Nat) : Option Nat :=
  match entries with
  | [] => none
  | (k₀, v) :: rest => if k₀ == k then some v else assocLookup rest k

/-- The store state: the coordinator's fields from `lib.rs` (`BTree`
struct), with each backing file represented by its logical contents.
`treeEntries` is the sorted key-value sequence persisted in the tree
file, `walRecords` the sequence of fixed-size log slots. -/
structure BTreeState where
  maxKeySize : Nat
  maxValueSize : Nat
  treeEntries : List (Nat × Nat)
  walRecords : List KeyValuePair
  memTree : MultiMap
  deriving DecidableEq, Repr

/-- Modelled from the spec: the WAL's `length()` (§4.1) equals
`record_count * (max_key_size + max_value_size)` — fixed-size slots. -/
def BTreeState.walLen (s : BTreeState) : Nat :=
  s.walRecords.length * (s.maxKeySize + s.maxValueSize)

/-- Modelled from the spec and tests: `wal_file.is_new()` is true iff the
log file is empty (length 0); the tests assert `!is_new()` right after a
successful insert, and §4.1's only such query is `is_empty()`. -/
def walIsNew (records : List KeyValuePair) : Bool :=
  records.isEmpty

/-- The constructor `BTree::new` from the source (`lib.rs` lines 51–77),
given the persisted contents of the two files at the path: the replay
loop is guarded by `wal_file.is_new()`, exactly as in the source. -/
def BTreeNew (maxKeySize maxValueSize : Nat) (walRecords : List KeyValuePair)
    (treeEntries : List (Nat × Nat)) : BTreeState :=
  let memTree := if walIsNew walRecords then replayLog walRecords else []
  { maxKeySize := maxKeySize
    maxValueSize := maxValueSize
    treeEntries := treeEntries
    walRecords := walRecords
    memTree := memTree }

/-- Modelled from the spec: the constructor §4.4 intends — replay the log
into a fresh buffer precisely when the log is non-empty. Kept separate
from `BTreeNew` (the source's behaviour) to compare the two. -/
def BTreeNewSpec (maxKeySize maxValueSize : Nat) (walRecords : List KeyValuePair)
    (treeEntries : List (Nat × Nat)) : BTreeState :=
  let memTree := if walIsNew walRecords then [] else replayLog walRecords
  { maxKeySize := maxKeySize
    maxValueSize := maxValueSize
    treeEntries := treeEntries
    walRecords := walRecords
    memTree := memTree }

/-- A store opened at a previously non-existent path: both files are
created empty (the tree file holding only its 8-byte header). -/
def freshStore (maxKeySize maxValueSize : Nat) : BTreeState :=
  BTreeNew maxKeySize maxValueSize [] []

/-- Reopening the store at the same path with the same sizes: the
constructor runs again over the persisted contents of both files. -/
def reopen (s : BTreeState) : BTreeState :=
  BTreeNew s.maxKeySize s.maxValueSize s.walRecords s.treeEntries

/-- `BTree::insert` from the source (`lib.rs` lines 80–90): write the
record to the WAL first; on failure return the error with the state
untouched (the early return of `try!`); on success insert into the
in-memory multi-map. The pair is the final state and the error, if any. -/
def insertRun (s : BTreeState) (k v : Nat) : BTreeState × Option BTreeError :=
  match writeRecord s.maxKeySize s.maxValueSize ⟨k, v⟩ s.walRecords with
  | Except.error e => (s, some e)
  | Except.ok w =>
    ({ s with walRecords := w, memTree := MultiMap.insert s.memTree k v }, none)

/-- Run a sequence of inserts; a failing insert leaves the state
unchanged, as the source's early return does. -/
def insertAll (s : BTreeState) (ops : List (Nat × Nat)) : BTreeState :=
  ops.foldl (fun st kv => (insertRun st kv.1 kv.2).1) s

/-- Modelled from the spec: the coordinator's `lookup` (§4.4), missing
from the visible source — check the buffer first (freshest), fall back to
the tree. -/
def storeLookup (s : BTreeState) (k : Nat) : Option Nat :=
  match MultiMap.lookup s.memTree k with
  | some v => some v
  | none => assocLookup s.treeEntries k

/-- Modelled from the spec: the two-pointer sorted merge at the heart of
`compact` (§4.4), left unfinished in the source. Buffer iteration and the
tree's ordered scan are merged linearly; a key present in only one side
is emitted as-is, a key present in both is emitted with the buffer's
most-recent version (freshest wins). -/
def mergeCompact : MultiMap → List (Nat × Nat) → List (Nat × Nat)
  | [], ts => ts
  | (k, vs) :: bs, [] => (k, vs.getLastD 0) :: mergeCompact bs []
  | (k, vs) :: bs, (tk, tv) :: ts =>
    if k < tk then (k, vs.getLastD 0) :: mergeCompact bs ((tk, tv) :: ts)
    else if tk < k then (tk, tv) :: mergeCompact ((k, vs) :: bs) ts
    else (k, vs.getLastD 0) :: mergeCompact bs ts
termination_by bs ts => bs.length + ts.length

/-- Modelled from the spec: `compact()` (§4.4), left unfinished in the
source — write the merged sequence into a new tree file, atomically swap
it in, truncate the log to empty; the buffer's pending writes are now
folded into the tree. -/
def compact (s : BTreeState) : BTreeState :=
  { s with treeEntries := mergeCompact s.memTree s.treeEntries
           walRecords := []
           memTree := [] }

/-- Fanout constant `NUM_CHILDREN` from the source (`lib.rs` line 27). -/
def NUM_CHILDREN : Nat := 32

/-- A fixed-size page of the tree file: internal (ordered routing keys
plus child pages) or leaf (ordered key-value pairs). Modelled from the
spec (§3 Page), `disk_btree` being missing from the visible source. -/
inductive Page where
  | internal (keys : List Nat) (children : List Page)
  | leaf (entries : List (Nat × Nat))
  deriving Repr

/-- Smallest routing key of a page (0 for an empty page). -/
def Page.minKeyD : Page → Nat
  | Page.leaf es => (es.headD (0, 0)).1
  | Page.internal ks _ => ks.headD 0

/-- Split a list into consecutive chunks of at most `n` elements. -/
def chunkList {α : Type} (n : Nat) : List α → List (List α)
  | [] => []
  | x :: xs =>
    if h : n = 0 then []
    else (x :: xs).take n :: chunkList n ((x :: xs).drop n)
termination_by l => l.length
decreasing_by
  simp only [List.length_drop, List.length_cons]
  omega

/-- A chunking of a list never has more chunks than elements. -/
theorem chunkList_length_le {α : Type} (n : Nat) (l : List α) (hn : 0 < n) :
    (chunkList n l).length ≤ l.length := by
  cases l with
  | nil => simp [chunkList]
  | cons x xs =>
    have hrec := chunkList_length_le n ((x :: xs).drop n) hn
    simp only [chunkList, dif_neg (Nat.pos_iff_ne_zero.mp hn)]
    simp only [List.length_drop, List.length_cons] at hrec ⊢
    omega
termination_by l.length
decreasing_by
  simp only [List.length_drop, List.length_cons]
  omega

/-- Chunking with chunk capacity at least 2 strictly shrinks a list of
at least two elements. -/
theorem chunkList_length_lt {α : Type} (n : Nat) (l : List α) (hn : 2 ≤ n)
    (hl : 2 ≤ l.length) : (chunkList n l).length < l.length := by
  cases l with
  | nil => simp at hl
  | cons x xs =>
    have hrec := chunkList_length_le n ((x :: xs).drop n) (by omega)
    simp only [chunkList, dif_neg (by omega : ¬n = 0)]
    simp only [List.length_drop, List.length_cons] at hrec hl ⊢
    omega

/-- Modelled from the spec: build the pages of a tree file bottom-up
(§4.4) — starting from the leaf level, group every `NUM_CHILDREN`
consecutive pages under a parent internal page until one page or none
remains; the result lists every page of the file, all levels. -/
def buildUpAll (ps : List Page) : List Page :=
  if h : ps.length ≤ 1 then ps
  else
    ps ++ buildUpAll ((chunkList NUM_CHILDREN ps).map
      (fun g => Page.internal ((g.map Page.minKeyD).drop 1) g))
termination_by ps.length
decreasing_by
  simp only [List.length_map]
  exact chunkList_length_lt NUM_CHILDREN ps (by norm_num [NUM_CHILDREN]) (by omega)

/-- Modelled from the spec: the leaf level of a tree file holding the
given sorted entries, fixed-capacity leaves filled left to right. -/
def buildLeaves (entries : List (Nat × Nat)) : List Page :=
  (chunkList NUM_CHILDREN entries).map Page.leaf

/-- Every page of the tree file holding the given sorted entries. -/
def treePages (entries : List (Nat × Nat)) : List Page :=
  buildUpAll (buildLeaves entries)

/-- Page size in bytes, derived from the size budgets and the fanout
(§3: all pages the same fixed size). -/
def pageSize (maxKeySize maxValueSize : Nat) : Nat :=
  NUM_CHILDREN * (maxKeySize + maxValueSize + 8)

/-- Byte length of the tree file: the 8-byte header (7-byte magic plus
1-byte version, `FILE_HEADER` and `CURRENT_VERSION` in the source)
followed by its fixed-size pages. -/
def BTreeState.treeFileLength (s : BTreeState) : Nat :=
  8 + (treePages s.treeEntries).length * pageSize s.maxKeySize s.maxValueSize

mutual
/-- The fanout bound: an internal page has at most `NUM_CHILDREN`
children, recursively at every level. -/
def Page.fanoutOK : Page → Bool
  | Page.leaf _ => true
  | Page.internal _ cs => decide (cs.length ≤ NUM_CHILDREN) && pagesFanoutOK cs

/-- All pages of a list satisfy the fanout bound. -/
def pagesFanoutOK : List Page → Bool
  | [] => true
  | p :: ps => Page.fanoutOK p && pagesFanoutOK ps
end

/-- A successful WAL append makes `insert` extend the log by the record
and the buffer by the version. -/
theorem insertRun_ok (s : BTreeState) (k v : Nat)
    (hk : byteSize k ≤ s.maxKeySize) (hv : byteSize v ≤ s.maxValueSize) :
    insertRun s k v
      = ({ s with walRecords := s.walRecords ++ [⟨k, v⟩],
                  memTree := MultiMap.insert s.memTree k v }, none) := by
  simp [insertRun, writeRecord, hk, hv]

/-- A failed WAL append makes `insert` return the error with the state
untouched. -/
theorem insertRun_err (s : BTreeState) (k v : Nat)
    (h : ¬(byteSize k ≤ s.maxKeySize ∧ byteSize v ≤ s.maxValueSize)) :
    insertRun s k v = (s, some BTreeError.EncodingError) := by
  simp [insertRun, writeRecord, if_neg h]

end BTreeStore

namespace BTreeStore

/-- C7: for any fresh store created at a previously non-existent path
with any sizes `(mk, mv)`, immediately after construction the tree file's
length is exactly 8 bytes (7-byte magic plus 1-byte version, zero
entries) and the log file's length is 0. -/
theorem C7_fresh_store_lengths (mk mv : Nat) :
    (freshStore mk mv).treeFileLength = 8 ∧ (freshStore mk mv).walLen = 0 := by
  constructor
  · simp [BTreeState.treeFileLength, freshStore, BTreeNew, treePages,
      buildLeaves, chunkList, buildUpAll]
  · simp [BTreeState.walLen, freshStore, BTreeNew]

/-- C8: reopening an existing store with the same sizes as at creation
writes to neither file, so both the tree file's length and the log file's
length are unchanged — in particular for a store that has had no
operations performed on it. -/
theorem C8_reopen_preserves_lengths (s : BTreeState) :
    (reopen s).treeFileLength = s.treeFileLength ∧ (reopen s).walLen = s.walLen :=
  ⟨rfl, rfl⟩

/-- C1: the claim says the constructor's recovery replay runs precisely
when the log is non-empty. The source guards the replay with
`wal_file.is_new()` — i.e. replays only when the log is EMPTY, a no-op —
so reopening with a non-empty log (one record `{key 2, value 3}`, sizes
1/1) leaves the buffer empty, while the spec-intended constructor
restores the record. -/
theorem C1_replay_condition_inverted :
    MultiMap.containsKey (BTreeNew 1 1 [⟨2, 3⟩] []).memTree 2 = false ∧
    MultiMap.containsKey (BTreeNewSpec 1 1 [⟨2, 3⟩] []).memTree 2 = true := by
  exact ⟨rfl, rfl⟩

/-- C4: any key or value whose encoded size exceeds the configured
maximum makes `insert` fail with `EncodingError`, leaving the whole store
state — log, buffer, and tree — unchanged. -/
theorem C4_oversize_rejected (s : BTreeState) (k v : Nat)
    (h : byteSize k > s.maxKeySize ∨ byteSize v > s.maxValueSize) :
    insertRun s k v = (s, some BTreeError.EncodingError) := by
  apply insertRun_err
  omega

/-- Witness for C4 at a concrete oversize key: key 300 needs two bytes,
over the one-byte budget. -/
theorem C4_oversize_rejected_witness :
    insertRun (freshStore 1 1) 300 0 = (freshStore 1 1, some BTreeError.EncodingError) :=
  C4_oversize_rejected (freshStore 1 1) 300 0 (Or.inl (by decide))

/-- C6: after a single successful insert on a fresh store with sizes
`(mk, mv)`, no error is returned, the log's length equals `mk + mv`
(one fixed-size slot), and the buffer contains the key. -/
theorem C6_single_insert (mk mv k v : Nat)
    (hk : byteSize k ≤ mk) (hv : byteSize v ≤ mv) :
    (insertRun (freshStore mk mv) k v).2 = none ∧
    ((insertRun (freshStore mk mv) k v).1).walLen = mk + mv ∧
    MultiMap.containsKey ((insertRun (freshStore mk mv) k v).1).memTree k = true := by
  rw [insertRun_ok (freshStore mk mv) k v hk hv]
  refine ⟨rfl, ?_, ?_⟩
  · simp [BTreeState.walLen, freshStore, BTreeNew]
  · simp [freshStore, BTreeNew, replayLog, MultiMap.insert, MultiMap.containsKey]

/-- Witness for C6: inserting key 2, value 3 on a fresh 1/1-byte store. -/
theorem C6_single_insert_witness :
    (insertRun (freshStore 1 1) 2 3).2 = none ∧
    ((insertRun (freshStore 1 1) 2 3).1).walLen = 1 + 1 ∧
    MultiMap.containsKey ((insertRun (freshStore 1 1) 2 3).1).memTree 2 = true :=
  C6_single_insert 1 1 2 3 (by decide) (by decide)

/-- C3: `insert` appends to the log first (the durability point) and only
then touches the buffer: when the log append fails, `insert` returns that
error and the state — buffer included — is exactly the input state; when
the append succeeds, the new log is the old one extended by exactly the
record and only then is the buffer extended. -/
theorem C3_insert_log_first (s : BTreeState) (k v : Nat) :
    (∀ e, writeRecord s.maxKeySize s.maxValueSize ⟨k, v⟩ s.walRecords = Except.error e →
      insertRun s k v = (s, some e)) ∧
    (∀ w, writeRecord s.maxKeySize s.maxValueSize ⟨k, v⟩ s.walRecords = Except.ok w →
      w = s.walRecords ++ [⟨k, v⟩] ∧
      insertRun s k v
        = ({ s with walRecords := w,
                    memTree := MultiMap.insert s.memTree k v }, none)) := by
  constructor
  · intro e he
    simp [insertRun, he]
  · intro w hw
    have hweq : w = s.walRecords ++ [⟨k, v⟩] := by
      unfold writeRecord at hw
      split at hw
      · exact (Except.ok.injEq _ _).mp hw.symm
      · exact absurd hw (by simp)
    exact ⟨hweq, by simp [insertRun, hw, hweq]⟩

/-- Witness for C3, exercising both branches: an oversize key (300 in a
one-byte budget) fails and leaves the state unchanged; an in-budget pair
appends to the log and the buffer. -/
theorem C3_insert_log_first_witness :
    insertRun (freshStore 1 1) 300 0 = (freshStore 1 1, some BTreeError.EncodingError) ∧
    ([⟨2, 3⟩] : List KeyValuePair) = (freshStore 1 1).walRecords ++ [⟨2, 3⟩] ∧
    insertRun (freshStore 1 1) 2 3
      = ({ freshStore 1 1 with
           walRecords := [⟨2, 3⟩],
           memTree := MultiMap.insert (freshStore 1 1).memTree 2 3 }, none) := by
  refine ⟨?_, ?_⟩
  · exact (C3_insert_log_first (freshStore 1 1) 300 0).1 BTreeError.EncodingError rfl
  · exact (C3_insert_log_first (freshStore 1 1) 2 3).2 [⟨2, 3⟩] rfl

/-- C5: inserting the same key twice with different values, both within
budget, on a fresh store with sizes `(mk, mv)`: the log holds two
fixed-size slots (length `2*(mk+mv)`, no dedup), the buffer retains both
versions in insertion order, and lookup returns the second value. -/
theorem C5_duplicate_key_versions (mk mv k v₁ v₂ : Nat) (hne : v₁ ≠ v₂)
    (hk : byteSize k ≤ mk) (hv₁ : byteSize v₁ ≤ mv) (hv₂ : byteSize v₂ ≤ mv) :
    ((insertRun ((insertRun (freshStore mk mv) k v₁).1) k v₂).1).walLen = 2 * (mk + mv) ∧
    MultiMap.versions ((insertRun ((insertRun (freshStore mk mv) k v₁).1) k v₂).1).memTree k
      = [v₁, v₂] ∧
    storeLookup ((insertRun ((insertRun (freshStore mk mv) k v₁).1) k v₂).1) k = some v₂ := by
  rw [insertRun_ok (freshStore mk mv) k v₁ hk hv₁]
  rw [insertRun_ok _ k v₂ hk hv₂]
  refine ⟨?_, ?_, ?_⟩
  · simp [BTreeState.walLen, freshStore, BTreeNew]
  · simp [freshStore, BTreeNew, replayLog, MultiMap.insert, MultiMap.versions,
      Nat.lt_irrefl]
  · simp [freshStore, BTreeNew, replayLog, MultiMap.insert, storeLookup,
      MultiMap.lookup, Nat.lt_irrefl]

/-- Witness for C5: key 2 with values 3 then 4 on a fresh 1/1 store. -/
theorem C5_duplicate_key_versions_witness :
    ((insertRun ((insertRun (freshStore 1 1) 2 3).1) 2 4).1).walLen = 2 * (1 + 1) ∧
    MultiMap.versions ((insertRun ((insertRun (freshStore 1 1) 2 3).1) 2 4).1).memTree 2
      = [3, 4] ∧
    storeLookup ((insertRun ((insertRun (freshStore 1 1) 2 3).1) 2 4).1) 2 = some 4 :=
  C5_duplicate_key_versions 1 1 2 3 4 (by decide) (by decide) (by decide) (by decide)

/-- Inserting into the multi-map changes lookup at exactly the inserted
key, which now reads the new version. -/
theorem MultiMap.lookup_insert (m : MultiMap) (k₁ v k : Nat) :
    MultiMap.lookup (MultiMap.insert m k₁ v) k
      = if k₁ == k then some v else MultiMap.lookup m k := by
  induction m with
  | nil => simp [MultiMap.insert, MultiMap.lookup]
  | cons p rest ih =>
    obtain ⟨k₀, vs⟩ := p
    by_cases hlt : k₁ < k₀
    · simp [MultiMap.insert, hlt, MultiMap.lookup]
    · by_cases heq : k₁ = k₀
      · subst heq
        by_cases hk : k₁ = k
        · subst hk
          simp [MultiMap.insert, hlt, MultiMap.lookup, List.getLast?_concat]
        · simp [MultiMap.insert, hlt, MultiMap.lookup, hk, Ne.symm hk]
      · have heq' : (k₁ == k₀) = false := by simp [heq]
        by_cases hk : k₀ = k
        · subst hk
          have : k₁ ≠ k₀ := heq
          simp [MultiMap.insert, hlt, heq', MultiMap.lookup, ih,
            beq_iff_eq, this]
        · simp [MultiMap.insert, hlt, heq', MultiMap.lookup, hk, ih]

/-- Replaying a record list on top of any accumulator: the last log
record for a key wins; keys without a record keep the accumulator's
answer. -/
theorem lookup_replay_aux (records : List KeyValuePair) (m : MultiMap) (k : Nat) :
    MultiMap.lookup (records.foldl (fun acc r => MultiMap.insert acc r.key r.value) m) k
      = (((records.filter (fun r => r.key == k)).getLast?).map
          (fun r => r.value)).or (MultiMap.lookup m k) := by
  induction records using List.reverseRecOn generalizing m with
  | nil => simp
  | append_singleton rs r ih =>
    rw [List.foldl_append, List.filter_append]
    by_cases hk : r.key = k
    · simp [List.foldl_cons, MultiMap.lookup_insert, hk, List.getLast?_append]
    · simp [List.foldl_cons, MultiMap.lookup_insert, hk, List.getLast?_append, ih]

/-- C10: whenever the constructor's replay loop runs, the records yielded
by the log iterator are folded into a fresh buffer one by one in log-file
order, so the buffer's most-recently-appended version for each key is the
value of the last log record for that key (and keys with no record are
absent). -/
theorem C10_replay_order (records : List KeyValuePair) (k : Nat) :
    MultiMap.lookup (replayLog records) k
      = ((records.filter (fun r => r.key == k)).getLast?).map (fun r => r.value) := by
  rw [replayLog, lookup_replay_aux]
  simp [MultiMap.lookup]

/-- Well-formedness of the buffer: no key holds an empty version list
(every entry was created by at least one insert). -/
def MultiMapWF (m : MultiMap) : Prop := ∀ p ∈ m, p.2 ≠ []

/-- Inserting preserves buffer well-formedness. -/
theorem MultiMapWF_insert (m : MultiMap) (k v : Nat) (h : MultiMapWF m) :
    MultiMapWF (MultiMap.insert m k v) := by
  induction m with
  | nil =>
    intro p hp
    simp [MultiMap.insert] at hp
    simp [hp]
  | cons q rest ih =>
    obtain ⟨k₀, vs⟩ := q
    have hrest : MultiMapWF rest := fun p hp => h p (List.mem_cons_of_mem _ hp)
    intro p hp
    by_cases hlt : k < k₀
    · simp [MultiMap.insert, hlt] at hp
      rcases hp with hp | hp | hp
      · simp [hp]
      · exact hp ▸ h (k₀, vs) (List.mem_cons_self _ _)
      · exact h p (List.mem_cons_of_mem _ hp)
    · by_cases heq : k = k₀
      · subst heq
        simp [MultiMap.insert, hlt] at hp
        rcases hp with hp | hp
        · simp [hp]
        · exact h p (List.mem_cons_of_mem _ hp)
      · have heq' : (k == k₀) = false := by simp [heq]
        simp [MultiMap.insert, hlt, heq'] at hp
        rcases hp with hp | hp
        · exact hp ▸ h (k₀, vs) (List.mem_cons_self _ _)
        · exact ih hrest p hp

/-- `insert` keeps the tree file untouched. -/
theorem insertRun_treeEntries (s : BTreeState) (k v : Nat) :
    ((insertRun s k v).1).treeEntries = s.treeEntries := by
  unfold insertRun
  cases writeRecord s.maxKeySize s.maxValueSize ⟨k, v⟩ s.walRecords <;> rfl

/-- `insert` preserves buffer well-formedness. -/
theorem insertRun_memTree_wf (s : BTreeState) (k v : Nat)
    (h : MultiMapWF s.memTree) : MultiMapWF ((insertRun s k v).1).memTree := by
  unfold insertRun
  cases writeRecord s.maxKeySize s.maxValueSize ⟨k, v⟩ s.walRecords with
  | error e => exact h
  | ok w => exact MultiMapWF_insert s.memTree k v h

/-- A sequence of inserts keeps the tree file untouched. -/
theorem insertAll_treeEntries (ops : List (Nat × Nat)) :
    ∀ s : BTreeState, (insertAll s ops).treeEntries = s.treeEntries := by
  induction ops with
  | nil => intro s; rfl
  | cons kv rest ih =>
    intro s
    rw [insertAll, List.foldl_cons]
    exact ((ih _).trans (insertRun_treeEntries s kv.1 kv.2))

/-- A sequence of inserts preserves buffer well-formedness. -/
theorem insertAll_memTree_wf (ops : List (Nat × Nat)) :
    ∀ s : BTreeState, MultiMapWF s.memTree → MultiMapWF (insertAll s ops).memTree := by
  induction ops with
  | nil => intro s h; exact h
  | cons kv rest ih =>
    intro s h
    rw [insertAll, List.foldl_cons]
    exact ih _ (insertRun_memTree_wf s kv.1 kv.2 h)

/-- Merging a well-formed buffer with an empty tree scan produces exactly
the buffer's freshest version for every key. -/
theorem mergeCompact_nil_lookup (bs : MultiMap) (h : MultiMapWF bs) (k : Nat) :
    assocLookup (mergeCompact bs []) k = MultiMap.lookup bs k := by
  induction bs with
  | nil => simp [mergeCompact, assocLookup, MultiMap.lookup]
  | cons p rest ih =>
    obtain ⟨k₀, vs⟩ := p
    have hvs : vs ≠ [] := h (k₀, vs) (List.mem_cons_self _ _)
    have hrest : MultiMapWF rest := fun q hq => h q (List.mem_cons_of_mem _ hq)
    have hlast : vs.getLast? = some (vs.getLastD 0) := by
      cases hq : vs.getLast? with
      | none => exact absurd (List.getLast?_eq_none_iff.mp hq) hvs
      | some a => simp [List.getLastD_eq_getLast?, hq]
    rw [mergeCompact]
    by_cases hk : k₀ = k
    · subst hk
      simp only [assocLookup, MultiMap.lookup, hlast, beq_self_eq_true, if_true]
    · simp only [assocLookup, MultiMap.lookup]
      rw [if_neg (by simp [hk]), if_neg (by simp [hk]), ih hrest]

/-- C2: after any sequence of inserts on a fresh store, one `compact()`
preserves the result of `lookup` at every key and truncates the log to
length 0. -/
theorem C2_compact_roundtrip (mk mv : Nat) (ops : List (Nat × Nat)) (k : Nat) :
    storeLookup (compact (insertAll (freshStore mk mv) ops)) k
      = storeLookup (insertAll (freshStore mk mv) ops) k ∧
    (compact (insertAll (freshStore mk mv) ops)).walLen = 0 := by
  have ht : (insertAll (freshStore mk mv) ops).treeEntries = [] :=
    insertAll_treeEntries ops (freshStore mk mv)
  have hwf : MultiMapWF (insertAll (freshStore mk mv) ops).memTree := by
    apply insertAll_memTree_wf
    intro p hp
    simp [freshStore, BTreeNew, replayLog] at hp
  constructor
  · rw [storeLookup, storeLookup]
    simp only [compact, MultiMap.lookup, ht]
    rw [mergeCompact_nil_lookup _ hwf k]
    cases MultiMap.lookup (insertAll (freshStore mk mv) ops).memTree k with
    | none => simp [assocLookup]
    | some v => simp
  · simp [compact, BTreeState.walLen]

/-- Every chunk produced by `chunkList` has at most `n` elements. -/
theorem chunkList_mem_length_le {α : Type} (n : Nat) :
    ∀ (l c : List α), c ∈ chunkList n l → c.length ≤ n
  | [], c, hc => by simp [chunkList] at hc
  | x :: xs, c, hc => by
    by_cases hn : n = 0
    · simp [chunkList, hn] at hc
    · rw [chunkList, dif_neg hn] at hc
      rcases List.mem_cons.mp hc with hc | hc
      · subst hc
        simp
      · exact chunkList_mem_length_le n ((x :: xs).drop n) c hc
termination_by l => l.length
decreasing_by
  simp only [List.length_drop, List.length_cons]
  omega

/-- Every element of a chunk produced by `chunkList` is an element of the
chunked list. -/
theorem chunkList_mem_subset {α : Type} (n : Nat) :
    ∀ (l c : List α), c ∈ chunkList n l → ∀ x ∈ c, x ∈ l
  | [], c, hc => by simp [chunkList] at hc
  | y :: xs, c, hc => by
    by_cases hn : n = 0
    · simp [chunkList, hn] at hc
    · rw [chunkList, dif_neg hn] at hc
      rcases List.mem_cons.mp hc with hc | hc
      · subst hc
        exact fun x hx => List.take_subset n (y :: xs) hx
      · intro x hx
        exact List.drop_subset n (y :: xs)
          (chunkList_mem_subset n ((y :: xs).drop n) c hc x hx)
termination_by l => l.length
decreasing_by
  simp only [List.length_drop, List.length_cons]
  omega

/-- The list-level fanout check is the conjunction of the page-level
checks. -/
theorem pagesFanoutOK_iff (l : List Page) :
    pagesFanoutOK l = true ↔ ∀ p ∈ l, Page.fanoutOK p = true := by
  induction l with
  | nil => simp [pagesFanoutOK]
  | cons p ps ih => simp [pagesFanoutOK, Bool.and_eq_true, ih]

/-- Bottom-up page building preserves the fanout bound: if every input
page satisfies it, so does every page of the finished file. -/
theorem buildUpAll_fanout (ps : List Page)
    (h : ∀ p ∈ ps, Page.fanoutOK p = true) :
    ∀ q ∈ buildUpAll ps, Page.fanoutOK q = true := by
  rw [buildUpAll]
  by_cases hlen : ps.length ≤ 1
  · rw [dif_pos hlen]
    exact h
  · rw [dif_neg hlen]
    intro q hq
    rcases List.mem_append.mp hq with hq | hq
    · exact h q hq
    · refine buildUpAll_fanout _ ?_ q hq
      intro p hp
      rcases List.mem_map.mp hp with ⟨g, hg, rfl⟩
      rw [Page.fanoutOK, Bool.and_eq_true, decide_eq_true_iff]
      refine ⟨chunkList_mem_length_le NUM_CHILDREN ps g hg, ?_⟩
      rw [pagesFanoutOK_iff]
      exact fun p hp => h p (chunkList_mem_subset NUM_CHILDREN ps g hg p hp)
termination_by ps.length
decreasing_by
  simp only [List.length_map]
  exact chunkList_length_lt NUM_CHILDREN ps (by norm_num [NUM_CHILDREN]) (by omega)

/-- C9: every internal page of every tree file built by this design has
at most `NUM_CHILDREN = 32` children, at every level, for any entry
sequence the file is built from. -/
theorem C9_fanout_bound (entries : List (Nat × Nat)) :
    pagesFanoutOK (treePages entries) = true := by
  rw [treePages, pagesFanoutOK_iff]
  apply buildUpAll_fanout
  intro p hp
  rcases List.mem_map.mp hp with ⟨c, _, rfl⟩
  rfl

end BTreeStore
